import Mathlib

/-!
Verification of the variable-base scalar-multiplication engine
(src/curve25519-dalek/src/backend/serial/scalar_mul/variable_base.rs).

The engine itself (the function `mul`) is embedded from the source file.
Its external collaborators -- the digit decomposer `Scalar::as_radix_16`,
the table builder `LookupTable::from` with its constant-time `select`,
and the group-arithmetic primitives -- are not part of the source tree,
so they are modelled from the specification (sections 3, 4.1, 4.2 and 6):
the group is an arbitrary additive commutative group, each coordinate
representation is a wrapper holding the logical group element, and each
conversion preserves that element.
-/

namespace VariableBase

/-! ## Digit decomposition (balanced signed radix 16) -/

/-- Modelled from the spec: one balanced signed-radix-16 digit of `v`
(section 4.1, `Scalar::as_radix_16` is not in the source tree).  The low
nibble is kept if it is below 8, otherwise it is recentred to `v % 16 - 16`. -/
def balancedDigit (v : Nat) : Int :=
  if v % 16 < 8 then (v % 16 : Int) else (v % 16 : Int) - 16

/-- Modelled from the spec: the value remaining after extracting one balanced
digit, i.e. `(v - balancedDigit v) / 16` (the carry goes up when the digit
is negative). -/
def nextVal (v : Nat) : Nat :=
  if v % 16 < 8 then v / 16 else v / 16 + 1

/-- Modelled from the spec: `k` balanced digits of `v` followed by the final
(uncentred) remaining value as the last digit. -/
def radixDigitsAux : Nat → Nat → List Int
  | v, 0 => [(v : Int)]
  | v, k + 1 => balancedDigit v :: radixDigitsAux (nextVal v) k

/-- Modelled from the spec: `Scalar::as_radix_16`, the signed radix-16
decomposition of a scalar into exactly 64 digits with
`s = s_0 + s_1 * 16 + ... + s_63 * 16^63` (section 4.1). -/
def as_radix_16 (s : Nat) : List Int :=
  radixDigitsAux s 63

/-- Horner evaluation of a digit list in radix 16: `d_0 + 16*(d_1 + 16*(...))`. -/
def evalRadix16 (l : List Int) : Int :=
  l.foldr (fun d acc => d + 16 * acc) 0

/-- Iterating `nextVal`; `iterNext v k` is the value remaining after
extracting `k` balanced digits. -/
def iterNext : Nat → Nat → Nat
  | v, 0 => v
  | v, k + 1 => iterNext (nextVal v) k

theorem radixDigitsAux_length (v k : Nat) : (radixDigitsAux v k).length = k + 1 := by
  induction k generalizing v with
  | zero => rfl
  | succ k ih => simp [radixDigitsAux, ih]

theorem balancedDigit_add (v : Nat) :
    balancedDigit v + 16 * (nextVal v : Int) = (v : Int) := by
  unfold balancedDigit nextVal
  have hmod := Nat.div_add_mod v 16
  by_cases h : v % 16 < 8 <;> simp [h] <;> omega

theorem evalRadix16_radixDigitsAux (v k : Nat) :
    evalRadix16 (radixDigitsAux v k) = (v : Int) := by
  induction k generalizing v with
  | zero => simp [radixDigitsAux, evalRadix16]
  | succ k ih =>
    simp only [radixDigitsAux, evalRadix16, List.foldr_cons]
    have h1 := ih (nextVal v)
    unfold evalRadix16 at h1
    rw [h1, balancedDigit_add]

theorem balancedDigit_range (v : Nat) :
    -8 ≤ balancedDigit v ∧ balancedDigit v ≤ 7 := by
  unfold balancedDigit
  have h16 : v % 16 < 16 := Nat.mod_lt _ (by omega)
  by_cases h : v % 16 < 8 <;> simp [h] <;> omega

theorem radixDigitsAux_getD_lt (v k i : Nat) (h : i < k) :
    (radixDigitsAux v k).getD i 0 = balancedDigit (iterNext v i) := by
  induction k generalizing v i with
  | zero => omega
  | succ k ih =>
    cases i with
    | zero => rfl
    | succ i => simpa [radixDigitsAux, iterNext] using ih (nextVal v) i (by omega)

theorem radixDigitsAux_getD_last (v k : Nat) :
    (radixDigitsAux v k).getD k 0 = (iterNext v k : Int) := by
  induction k generalizing v with
  | zero => rfl
  | succ k ih => simpa [radixDigitsAux, iterNext] using ih (nextVal v)

theorem nextVal_mul_le (v : Nat) : 16 * nextVal v ≤ v + 8 := by
  unfold nextVal
  have hmod := Nat.div_add_mod v 16
  by_cases h : v % 16 < 8 <;> simp [h] <;> omega

theorem iterNext_bound (k v : Nat) :
    15 * (16 ^ k * iterNext v k) ≤ 15 * v + 8 * (16 ^ k - 1) := by
  induction k generalizing v with
  | zero => simp [iterNext]
  | succ k ih =>
    have h1 : iterNext v (k + 1) = iterNext (nextVal v) k := rfl
    have h2 := ih (nextVal v)
    have h3 := nextVal_mul_le v
    have h4 : (1 : Nat) ≤ 16 ^ k := Nat.one_le_pow _ _ (by omega)
    have h5 : 16 ^ (k + 1) = 16 * 16 ^ k := by ring
    calc 15 * (16 ^ (k + 1) * iterNext v (k + 1))
        = 16 * (15 * (16 ^ k * iterNext (nextVal v) k)) := by rw [h1, h5]; ring
      _ ≤ 16 * (15 * nextVal v + 8 * (16 ^ k - 1)) := by
          exact Nat.mul_le_mul_left 16 h2
      _ = 15 * (16 * nextVal v) + 128 * (16 ^ k - 1) := by ring
      _ ≤ 15 * (v + 8) + 128 * (16 ^ k - 1) := by
          exact Nat.add_le_add_right (Nat.mul_le_mul_left 15 h3) _
      _ ≤ 15 * v + 8 * (16 ^ (k + 1) - 1) := by rw [h5]; omega

theorem iterNext_63_le (s : Nat) (hs : s < 2 ^ 255) : iterNext s 63 ≤ 8 := by
  have hb := iterNext_bound 63 s
  have hN : (16 : Nat) ^ 63 = 2 ^ 252 := by norm_num
  by_contra hgt
  push_neg at hgt
  have h9 : 9 ≤ iterNext s 63 := hgt
  have h135 : 15 * (16 ^ 63 * 9) ≤ 15 * (16 ^ 63 * iterNext s 63) :=
    Nat.mul_le_mul_left 15 (Nat.mul_le_mul_left _ h9)
  have h255 : (2 : Nat) ^ 255 = 8 * 16 ^ 63 := by norm_num
  have h1 : (1 : Nat) ≤ 16 ^ 63 := Nat.one_le_pow _ _ (by omega)
  omega

/-! ## Group-element representations

Modelled from the spec, section 3: every coordinate representation of the
same logical point evaluates to the same point, and conversions are pure and
total.  Each representation is therefore a wrapper holding the logical group
element of an arbitrary additive commutative group `G`. -/

/-- The caller-visible extended ("P3") representation of a group element. -/
structure EdwardsPoint (G : Type) where
  toGroup : G

/-- The addition-optimised ("ProjectiveNiels") representation. -/
structure ProjectiveNielsPoint (G : Type) where
  toGroup : G

/-- The completed ("P1xP1") representation. -/
structure CompletedPoint (G : Type) where
  toGroup : G

/-- The projective ("P2") representation. -/
structure ProjectivePoint (G : Type) where
  toGroup : G

variable {G : Type} [AddCommGroup G]

/-- Modelled from the spec: the distinguished additive identity element
(section 6, `identity() -> GroupElement`). -/
def EdwardsPoint.identity : EdwardsPoint G :=
  ⟨0⟩

/-- Modelled from the spec: mixed-representation point addition
(section 6, `add`), as used in `&tmp3 + &lookup_table.select(...)`. -/
def EdwardsPoint.addNiels (p : EdwardsPoint G) (q : ProjectiveNielsPoint G) :
    CompletedPoint G :=
  ⟨p.toGroup + q.toGroup⟩

/-- Modelled from the spec: representation conversion P1xP1 → P2,
preserving the logical point (section 3). -/
def CompletedPoint.as_projective (p : CompletedPoint G) : ProjectivePoint G :=
  ⟨p.toGroup⟩

/-- Modelled from the spec: representation conversion P1xP1 → P3,
preserving the logical point (section 3). -/
def CompletedPoint.as_extended (p : CompletedPoint G) : EdwardsPoint G :=
  ⟨p.toGroup⟩

/-- Modelled from the spec: point doubling (section 6, `double`). -/
def ProjectivePoint.double (p : ProjectivePoint G) : CompletedPoint G :=
  ⟨p.toGroup + p.toGroup⟩

/-! ## Lookup table (spec section 4.2) -/

/-- A table of precomputed multiples in the addition-optimised form. -/
structure LookupTable (G : Type) where
  entries : List G

/-- Modelled from the spec: the entries `1*P, 2*P, ..., 8*P` built by
repeated addition, `tableEntry p n = (n+1)*P` (section 4.2). -/
def tableEntry (p : G) : Nat → G
  | 0 => p
  | n + 1 => tableEntry p n + p

/-- Modelled from the spec: `LookupTable::from(point)`, the table
`[P, 2P, 3P, 4P, 5P, 6P, 7P, 8P]` (section 4.2, `build`). -/
def LookupTable.fromPoint (point : EdwardsPoint G) : LookupTable G :=
  ⟨(List.range 8).map (tableEntry point.toGroup)⟩

/-- Modelled from the spec: constant-time selection by signed index
(section 4.2, `select`): digit `0` yields the identity contribution, a
positive digit `d` yields entry `d`, and a negative digit yields the
negation of entry `|d|`. -/
def LookupTable.select (t : LookupTable G) (d : Int) : ProjectiveNielsPoint G :=
  let m := d.natAbs
  let e := if m = 0 then (0 : G) else t.entries.getD (m - 1) 0
  ⟨if d < 0 then -e else e⟩

/-! ## The engine (embedded from variable_base.rs, generic `mul`) -/

/-- One iteration of the body of `for i in (0..63).rev()` in `mul`:
four doublings with their representation conversions, then the addition of
the selected table entry for digit `i`. -/
def mulStep (lookup_table : LookupTable G) (scalar_digits : List Int)
    (acc : CompletedPoint G) (i : Nat) : CompletedPoint G :=
  let tmp2 := acc.as_projective
  let tmp1 := tmp2.double
  let tmp2 := tmp1.as_projective
  let tmp1 := tmp2.double
  let tmp2 := tmp1.as_projective
  let tmp1 := tmp2.double
  let tmp2 := tmp1.as_projective
  let tmp1 := tmp2.double
  let tmp3 := tmp1.as_extended
  tmp3.addNiels (lookup_table.select (scalar_digits.getD i 0))

/-- The unwrapped first iteration of `mul`:
`tmp1 = identity + lookup_table.select(scalar_digits[63])`. -/
def mulInit (lookup_table : LookupTable G) (scalar_digits : List Int) :
    CompletedPoint G :=
  EdwardsPoint.identity.addNiels (lookup_table.select (scalar_digits.getD 63 0))

/-- The loop of `mul` run from digit 62 down to digit `i`; `mulLoop lt ds i`
is the accumulator after the iteration for digit index `i` (and
`mulLoop lt ds 63` is the accumulator after the unwrapped first step). -/
def mulLoop (lookup_table : LookupTable G) (scalar_digits : List Int)
    (i : Nat) : CompletedPoint G :=
  ((List.range' i (63 - i)).reverse).foldl (mulStep lookup_table scalar_digits)
    (mulInit lookup_table scalar_digits)

/-- Embedded from the source: `mul(point, scalar)`, constant-time
variable-base scalar multiplication by a radix-16 windowed double-and-add
(variable_base.rs, lines 12-49). -/
def mul (point : EdwardsPoint G) (scalar : Nat) : EdwardsPoint G :=
  let lookup_table := LookupTable.fromPoint point
  let scalar_digits := as_radix_16 scalar
  let tmp1 := EdwardsPoint.identity.addNiels
    (lookup_table.select (scalar_digits.getD 63 0))
  (((List.range 63).reverse).foldl (mulStep lookup_table scalar_digits)
    tmp1).as_extended

theorem mul_eq_mulLoop (point : EdwardsPoint G) (scalar : Nat) :
    mul point scalar =
      (mulLoop (LookupTable.fromPoint point) (as_radix_16 scalar) 0).as_extended := by
  simp [mul, mulLoop, mulInit, List.range_eq_range']

/-! ## Correctness of the table and of the selection -/

theorem tableEntry_eq_nsmul (p : G) (n : Nat) : tableEntry p n = (n + 1) • p := by
  induction n with
  | zero => simp [tableEntry]
  | succ n ih =>
    rw [tableEntry, ih]
    exact (succ_nsmul p (n + 1)).symm

theorem select_fromPoint (p : EdwardsPoint G) (d : Int) (h8 : d.natAbs ≤ 8) :
    ((LookupTable.fromPoint p).select d).toGroup = d • p.toGroup := by
  unfold LookupTable.select LookupTable.fromPoint
  cases hm : d.natAbs with
  | zero =>
    have hd : d = 0 := Int.natAbs_eq_zero.mp hm
    subst hd
    simp
  | succ m =>
    have hm8 : m < 8 := by omega
    have hlen : ((List.range 8).map (tableEntry p.toGroup)).length = 8 := by simp
    have hentry : ((List.range 8).map (tableEntry p.toGroup)).getD (m + 1 - 1) 0
        = (m + 1) • p.toGroup := by
      rw [List.getD_eq_getElem _ _ (by omega)]
      simp [tableEntry_eq_nsmul]
    rcases Int.natAbs_eq d with hd | hd
    · have hdpos : ¬ d < 0 := by omega
      simp only [hm, hentry, Nat.succ_ne_zero, if_false, if_neg hdpos]
      rw [hd, hm]
      exact (natCast_zsmul p.toGroup (m + 1)).symm
    · have hdneg : d < 0 := by omega
      simp only [hm, hentry, Nat.succ_ne_zero, if_false, if_pos hdneg]
      rw [hd, hm, neg_zsmul, natCast_zsmul]

/-! ## Digit bounds of the decomposition of a valid scalar -/

theorem as_radix_16_length (s : Nat) : (as_radix_16 s).length = 64 :=
  radixDigitsAux_length s 63

theorem as_radix_16_getD_lt (s i : Nat) (h : i < 63) :
    (as_radix_16 s).getD i 0 = balancedDigit (iterNext s i) :=
  radixDigitsAux_getD_lt s 63 i h

theorem as_radix_16_getD_63 (s : Nat) :
    (as_radix_16 s).getD 63 0 = (iterNext s 63 : Int) :=
  radixDigitsAux_getD_last s 63

theorem as_radix_16_natAbs_le (s : Nat) (hs : s < 2 ^ 255) (i : Nat)
    (hi : i ≤ 63) : ((as_radix_16 s).getD i 0).natAbs ≤ 8 := by
  rcases Nat.lt_or_ge i 63 with h | h
  · rw [as_radix_16_getD_lt s i h]
    have := balancedDigit_range (iterNext s i)
    omega
  · have h63 : i = 63 := by omega
    subst h63
    rw [as_radix_16_getD_63]
    have := iterNext_63_le s hs
    omega

/-! ## The loop invariant -/

theorem mulStep_toGroup (lt : LookupTable G) (ds : List Int)
    (acc : CompletedPoint G) (i : Nat) :
    (mulStep lt ds acc i).toGroup
      = (16 : Int) • acc.toGroup + (lt.select (ds.getD i 0)).toGroup := by
  simp only [mulStep, CompletedPoint.as_projective, ProjectivePoint.double,
    CompletedPoint.as_extended, EdwardsPoint.addNiels]
  abel

theorem mulLoop_base (lt : LookupTable G) (ds : List Int) :
    mulLoop lt ds 63 = mulInit lt ds := by
  simp [mulLoop]

theorem mulLoop_succ (lt : LookupTable G) (ds : List Int) (i : Nat)
    (h : i < 63) :
    mulLoop lt ds i = mulStep lt ds (mulLoop lt ds (i + 1)) i := by
  unfold mulLoop
  have h1 : 63 - i = (63 - (i + 1)) + 1 := by omega
  rw [h1, List.range'_succ, List.reverse_cons, List.foldl_append]
  rfl

theorem suffixSum_base (ds : List Int) :
    (∑ j ∈ Finset.Icc 63 63, ds.getD j 0 * 16 ^ (j - 63)) = ds.getD 63 0 := by
  simp

theorem suffixSum_succ (ds : List Int) (i : Nat) (h : i < 63) :
    (∑ j ∈ Finset.Icc i 63, ds.getD j 0 * 16 ^ (j - i))
      = ds.getD i 0 + 16 * ∑ j ∈ Finset.Icc (i + 1) 63, ds.getD j 0 * 16 ^ (j - (i + 1)) := by
  rw [← Finset.add_sum_Ioc_eq_sum_Icc (by omega : i ≤ 63)]
  rw [Nat.sub_self, pow_zero, mul_one]
  congr 1
  rw [← Nat.Icc_succ_left, Finset.mul_sum]
  refine Finset.sum_congr rfl ?_
  intro j hj
  have hij : i + 1 ≤ j := (Finset.mem_Icc.mp hj).1
  have hexp : j - i = (j - (i + 1)) + 1 := by omega
  rw [hexp, pow_succ]
  ring

theorem mulLoop_invariant (P : EdwardsPoint G) (s : Nat) (hs : s < 2 ^ 255) :
    ∀ k, k ≤ 63 →
      (mulLoop (LookupTable.fromPoint P) (as_radix_16 s) (63 - k)).toGroup
        = (∑ j ∈ Finset.Icc (63 - k) 63, (as_radix_16 s).getD j 0 * 16 ^ (j - (63 - k)))
            • P.toGroup := by
  intro k
  induction k with
  | zero =>
    intro _
    rw [Nat.sub_zero, mulLoop_base, suffixSum_base]
    show (0 : G) + _ = _
    rw [zero_add, select_fromPoint _ _ (as_radix_16_natAbs_le s hs 63 (by omega))]
  | succ k ih =>
    intro hk
    have hk' : k ≤ 63 := by omega
    have hi : 63 - (k + 1) < 63 := by omega
    have hi1 : 63 - (k + 1) + 1 = 63 - k := by omega
    rw [mulLoop_succ _ _ _ hi, mulStep_toGroup, hi1, ih hk',
      select_fromPoint _ _ (as_radix_16_natAbs_le s hs _ (by omega)),
      suffixSum_succ _ _ hi, hi1]
    rw [add_zsmul, mul_zsmul, add_comm]

/-! ## Evaluation of the digit sum -/

theorem evalRadix16_eq_sum (l : List Int) :
    evalRadix16 l = ∑ j ∈ Finset.range l.length, l.getD j 0 * 16 ^ j := by
  induction l with
  | nil => simp [evalRadix16]
  | cons d t ih =>
    show d + 16 * evalRadix16 t = _
    rw [List.length_cons, Finset.sum_range_succ']
    simp only [List.getD_cons_succ, List.getD_cons_zero, pow_zero, mul_one]
    rw [ih, Finset.mul_sum, add_comm]
    congr 1
    refine Finset.sum_congr rfl ?_
    intro j _
    rw [pow_succ]
    ring

theorem as_radix_16_sum (s : Nat) :
    (∑ j ∈ Finset.range 64, (as_radix_16 s).getD j 0 * 16 ^ j) = (s : Int) := by
  have h := evalRadix16_eq_sum (as_radix_16 s)
  rw [as_radix_16_length] at h
  rw [← h, as_radix_16, evalRadix16_radixDigitsAux]

/-- The central correctness result: for every valid scalar, the engine
computes the scalar multiple of the logical group element. -/
theorem mul_toGroup (P : EdwardsPoint G) (s : Nat) (hs : s < 2 ^ 255) :
    (mul P s).toGroup = (s : Int) • P.toGroup := by
  rw [mul_eq_mulLoop]
  show (mulLoop (LookupTable.fromPoint P) (as_radix_16 s) 0).toGroup = _
  have h := mulLoop_invariant P s hs 63 (by omega)
  rw [Nat.sub_self] at h
  rw [h]
  congr 1
  have hr : Finset.Icc 0 63 = Finset.range 64 := by
    rw [Finset.range_eq_Ico, ← Nat.Ico_succ_right]
  rw [← as_radix_16_sum s, hr]
  refine Finset.sum_congr rfl ?_
  intro j _
  rw [Nat.sub_zero]

/-! ## Reference implementation: naive binary double-and-add (spec section 8) -/

/-- Modelled from the spec: point addition on the caller-visible
representation (section 6, `add(GroupElement, GroupElement)`), used only by
the reference implementation. -/
def EdwardsPoint.add (p q : EdwardsPoint G) : EdwardsPoint G :=
  ⟨p.toGroup + q.toGroup⟩

/-- Modelled from the spec: the naive, non-windowed binary double-and-add
reference implementation (section 8, the primary oracle).  Processes the
scalar one bit at a time: double the result for the high bits, then add the
base point when the low bit is set. -/
def binaryMul (point : EdwardsPoint G) (s : Nat) : EdwardsPoint G :=
  if h : s = 0 then EdwardsPoint.identity
  else
    let r := binaryMul point (s / 2)
    let d := r.add r
    if s % 2 = 1 then d.add point else d
termination_by s
decreasing_by exact Nat.div_lt_self (Nat.pos_of_ne_zero h) (by omega)

theorem binaryMul_toGroup (point : EdwardsPoint G) (s : Nat) :
    (binaryMul point s).toGroup = s • point.toGroup := by
  induction s using Nat.strong_induction_on with
  | _ s ih =>
    rw [binaryMul]
    by_cases h : s = 0
    · subst h
      simp [EdwardsPoint.identity]
    · have hdiv : s / 2 < s := Nat.div_lt_self (Nat.pos_of_ne_zero h) (by omega)
      have hrec := ih (s / 2) hdiv
      have hsplit : 2 * (s / 2) + s % 2 = s := Nat.div_add_mod s 2
      rw [dif_neg h]
      by_cases h2 : s % 2 = 1
      · simp only [if_pos h2, EdwardsPoint.add, hrec]
        conv_rhs => rw [show s = 2 * (s / 2) + 1 by omega]
        rw [add_nsmul, two_mul, add_nsmul, one_nsmul]
      · simp only [if_neg h2, EdwardsPoint.add, hrec]
        conv_rhs => rw [show s = 2 * (s / 2) by omega]
        rw [two_mul, add_nsmul]

/-! ## The accelerated engine (embedded from variable_base.rs, zkvm `mul`)

The host intrinsic `mul_assign` lives outside the source tree, so it is a
parameter here; its failure (which the source maps to a fatal abort through
`expect`) is modelled by `none`. -/

/-- Embedded from the source (variable_base.rs, lines 58-62): the accelerated
`mul` converts the point, delegates the whole multiplication to the host
intrinsic, and aborts (modelled as `none`) when the intrinsic reports
failure, converting the result back otherwise. -/
def mulZkvm (host : EdwardsPoint G → Nat → Option (EdwardsPoint G))
    (point : EdwardsPoint G) (scalar : Nat) : Option (EdwardsPoint G) :=
  match host point scalar with
  | some ed_point => some ed_point
  | none => none

/-- Modelled from the spec: the host `hostMultiply` intrinsic on the success
path computes the scalar multiple of the point (section 6; its internal
syscall semantics are out of scope, only its contract is modelled). -/
def hostMultiplySpec (point : EdwardsPoint G) (scalar : Nat) :
    Option (EdwardsPoint G) :=
  some ⟨(scalar : Int) • point.toGroup⟩

/-! ## Instrumented engine: operation trace

`mulI` runs the generic engine while recording one event per doubling,
per table selection and per addition, in execution order.  The value
component reuses `mulStep`/`mulInit` verbatim, so the instrumentation
cannot diverge from `mul`. -/

/-- One observable operation of the engine. -/
inductive OpEvent where
  | doubleOp : OpEvent
  | selectOp : OpEvent
  | addOp : OpEvent
deriving DecidableEq, Repr

/-- The events of one loop iteration: four doublings, then the table
selection and the addition. -/
def stepEvents : List OpEvent :=
  [.doubleOp, .doubleOp, .doubleOp, .doubleOp, .selectOp, .addOp]

/-- One instrumented loop iteration: same value as `mulStep`, plus the
events it performs. -/
def mulStepI (lookup_table : LookupTable G) (scalar_digits : List Int)
    (st : CompletedPoint G × List OpEvent) (i : Nat) :
    CompletedPoint G × List OpEvent :=
  (mulStep lookup_table scalar_digits st.1 i, st.2 ++ stepEvents)

/-- The instrumented engine: the value computed by `mul` together with the
ordered trace of doublings, selections and additions it performs. -/
def mulI (point : EdwardsPoint G) (scalar : Nat) :
    EdwardsPoint G × List OpEvent :=
  let lookup_table := LookupTable.fromPoint point
  let scalar_digits := as_radix_16 scalar
  let init := (mulInit lookup_table scalar_digits, [OpEvent.selectOp, OpEvent.addOp])
  let res := ((List.range 63).reverse).foldl (mulStepI lookup_table scalar_digits) init
  (res.1.as_extended, res.2)

theorem foldl_mulStepI_fst (lt : LookupTable G) (ds : List Int)
    (l : List Nat) (a : CompletedPoint G) (e : List OpEvent) :
    (l.foldl (mulStepI lt ds) (a, e)).1 = l.foldl (mulStep lt ds) a := by
  induction l generalizing a e with
  | nil => rfl
  | cons x l ih => exact ih _ _

theorem foldl_mulStepI_snd (lt : LookupTable G) (ds : List Int)
    (l : List Nat) (a : CompletedPoint G) (e : List OpEvent) :
    (l.foldl (mulStepI lt ds) (a, e)).2
      = l.foldl (fun ev _ => ev ++ stepEvents) e := by
  induction l generalizing a e with
  | nil => rfl
  | cons x l ih => exact ih _ _

/-- The instrumentation is faithful: its value component is `mul`. -/
theorem mulI_fst (point : EdwardsPoint G) (scalar : Nat) :
    (mulI point scalar).1 = mul point scalar := by
  simp only [mulI, mul, foldl_mulStepI_fst]
  rfl

/-- The trace of the engine is one fixed event list, independent of the
point, the scalar and the group. -/
theorem mulI_snd (point : EdwardsPoint G) (scalar : Nat) :
    (mulI point scalar).2
      = ((List.range 63).reverse).foldl (fun ev _ => ev ++ stepEvents)
          [OpEvent.selectOp, OpEvent.addOp] := by
  simp only [mulI, foldl_mulStepI_snd]

/-! ## Small helpers for the claim statements -/

omit [AddCommGroup G] in
theorem EdwardsPoint.toGroup_inj {p q : EdwardsPoint G}
    (h : p.toGroup = q.toGroup) : p = q := by
  cases p
  cases q
  cases h
  rfl

/-- The accumulator after the loop has run down to digit 0 holds the full
scalar multiple. -/
theorem mulLoop_zero (P : EdwardsPoint G) (s : Nat) (hs : s < 2 ^ 255) :
    (mulLoop (LookupTable.fromPoint P) (as_radix_16 s) 0).toGroup
      = (s : Int) • P.toGroup := by
  have h := mulLoop_invariant P s hs 63 (by omega)
  rw [Nat.sub_self] at h
  rw [h]
  congr 1
  have hr : Finset.Icc 0 63 = Finset.range 64 := by
    rw [Finset.range_eq_Ico, ← Nat.Ico_succ_right]
  rw [← as_radix_16_sum s, hr]
  refine Finset.sum_congr rfl ?_
  intro j _
  rw [Nat.sub_zero]

/-! ## The claims -/

/-- C1: for every point P and every valid scalar s (s < 2^255), the generic
engine mul(P, s) returns the group element s*P, i.e. it equals the result of
a naive, non-windowed binary double-and-add reference implementation on the
same inputs. -/
theorem claim_C1_mul_eq_binary_reference {G : Type} [AddCommGroup G]
    (P : EdwardsPoint G) (s : Nat) (hs : s < 2 ^ 255) :
    mul P s = binaryMul P s := by
  apply EdwardsPoint.toGroup_inj
  rw [mul_toGroup P s hs, binaryMul_toGroup, natCast_zsmul]

/-- Witness for C1 at the concrete input G = Int, P = 2, s = 5. -/
theorem claim_C1_witness :
    (5 : Nat) < 2 ^ 255 ∧ mul (⟨2⟩ : EdwardsPoint Int) 5 = binaryMul ⟨2⟩ 5 :=
  ⟨by norm_num, claim_C1_mul_eq_binary_reference ⟨2⟩ 5 (by norm_num)⟩

/-- C2: for every valid input pair, the generic engine and the accelerated
engine (which delegates to the host multiply intrinsic, modelled from the
spec as computing the scalar multiple on success) return identical
results. -/
theorem claim_C2_backend_equivalence {G : Type} [AddCommGroup G]
    (P : EdwardsPoint G) (s : Nat) (hs : s < 2 ^ 255) :
    mulZkvm hostMultiplySpec P s = some (mul P s) := by
  show some (⟨(s : Int) • P.toGroup⟩ : EdwardsPoint G) = some (mul P s)
  exact congrArg some (EdwardsPoint.toGroup_inj (mul_toGroup P s hs).symm)

/-- Witness for C2 at the concrete input G = Int, P = 3, s = 4. -/
theorem claim_C2_witness :
    (4 : Nat) < 2 ^ 255
      ∧ mulZkvm hostMultiplySpec (⟨3⟩ : EdwardsPoint Int) 4 = some (mul ⟨3⟩ 4) :=
  ⟨by norm_num, claim_C2_backend_equivalence ⟨3⟩ 4 (by norm_num)⟩

/-- C3: for every point P and valid scalar s with radix-16 digits s_0..s_63,
after processing digit index i (for every i from 63 down to 0) the
accumulator of the loop equals the partial weighted sum over digits i..63,
and in particular at i = 0 it equals s*P. -/
theorem claim_C3_loop_invariant {G : Type} [AddCommGroup G]
    (P : EdwardsPoint G) (s i : Nat) (hs : s < 2 ^ 255) (hi : i ≤ 63) :
    (mulLoop (LookupTable.fromPoint P) (as_radix_16 s) i).toGroup
        = (∑ j ∈ Finset.Icc i 63, (as_radix_16 s).getD j 0 * 16 ^ (j - i))
            • P.toGroup
      ∧ (mulLoop (LookupTable.fromPoint P) (as_radix_16 s) 0).toGroup
          = (s : Int) • P.toGroup := by
  constructor
  · have h := mulLoop_invariant P s hs (63 - i) (by omega)
    have hii : 63 - (63 - i) = i := by omega
    rw [hii] at h
    exact h
  · exact mulLoop_zero P s hs

/-- Witness for C3 at the concrete input G = Int, P = 1, s = 3, i = 62. -/
theorem claim_C3_witness :
    (3 : Nat) < 2 ^ 255 ∧ (62 : Nat) ≤ 63
      ∧ ((mulLoop (LookupTable.fromPoint (⟨1⟩ : EdwardsPoint Int))
            (as_radix_16 3) 62).toGroup
          = (∑ j ∈ Finset.Icc 62 63, (as_radix_16 3).getD j 0 * 16 ^ (j - 62))
              • (⟨1⟩ : EdwardsPoint Int).toGroup
        ∧ (mulLoop (LookupTable.fromPoint (⟨1⟩ : EdwardsPoint Int))
              (as_radix_16 3) 0).toGroup
            = ((3 : Nat) : Int) • (⟨1⟩ : EdwardsPoint Int).toGroup) :=
  ⟨by norm_num, by norm_num,
    claim_C3_loop_invariant ⟨1⟩ 3 62 (by norm_num) (by norm_num)⟩

/-- C4: for every scalar s < 2^255, as_radix_16 s has exactly 64 signed
digits whose radix-16 evaluation reproduces s; every digit at position 0..62
lies in [-8, 7] and the digit at position 63 lies in [-8, 8]. -/
theorem claim_C4_digit_decomposition (s : Nat) (hs : s < 2 ^ 255) :
    (as_radix_16 s).length = 64
      ∧ (∑ j ∈ Finset.range 64, (as_radix_16 s).getD j 0 * 16 ^ j) = (s : Int)
      ∧ (∀ i, i < 63 →
          -8 ≤ (as_radix_16 s).getD i 0 ∧ (as_radix_16 s).getD i 0 ≤ 7)
      ∧ (-8 ≤ (as_radix_16 s).getD 63 0 ∧ (as_radix_16 s).getD 63 0 ≤ 8) := by
  refine ⟨as_radix_16_length s, as_radix_16_sum s, ?_, ?_⟩
  · intro i hi
    rw [as_radix_16_getD_lt s i hi]
    exact balancedDigit_range (iterNext s i)
  · rw [as_radix_16_getD_63]
    have := iterNext_63_le s hs
    omega

/-- Witness for C4 at the concrete scalar s = 1000. -/
theorem claim_C4_witness :
    (1000 : Nat) < 2 ^ 255
      ∧ ((as_radix_16 1000).length = 64
        ∧ (∑ j ∈ Finset.range 64, (as_radix_16 1000).getD j 0 * 16 ^ j)
            = ((1000 : Nat) : Int)
        ∧ (∀ i, i < 63 →
            -8 ≤ (as_radix_16 1000).getD i 0 ∧ (as_radix_16 1000).getD i 0 ≤ 7)
        ∧ (-8 ≤ (as_radix_16 1000).getD 63 0
            ∧ (as_radix_16 1000).getD 63 0 ≤ 8)) :=
  ⟨by norm_num, claim_C4_digit_decomposition 1000 (by norm_num)⟩

/-- C5: identity absorption: multiplying the identity by any valid scalar
yields the identity, and multiplying any point by the scalar 0 yields the
identity. -/
theorem claim_C5_identity_absorption {G : Type} [AddCommGroup G]
    (P : EdwardsPoint G) (s : Nat) (hs : s < 2 ^ 255) :
    mul (EdwardsPoint.identity : EdwardsPoint G) s = EdwardsPoint.identity
      ∧ mul P 0 = EdwardsPoint.identity := by
  constructor
  · apply EdwardsPoint.toGroup_inj
    rw [mul_toGroup _ s hs]
    show (s : Int) • (0 : G) = (0 : G)
    rw [smul_zero]
  · apply EdwardsPoint.toGroup_inj
    rw [mul_toGroup P 0 (Nat.two_pow_pos 255)]
    show ((0 : Nat) : Int) • P.toGroup = (0 : G)
    simp

/-- Witness for C5 at the concrete input G = Int, P = 7, s = 9. -/
theorem claim_C5_witness :
    (9 : Nat) < 2 ^ 255
      ∧ (mul (EdwardsPoint.identity : EdwardsPoint Int) 9 = EdwardsPoint.identity
        ∧ mul (⟨7⟩ : EdwardsPoint Int) 0 = EdwardsPoint.identity) :=
  ⟨by norm_num, claim_C5_identity_absorption ⟨7⟩ 9 (by norm_num)⟩

/-- C6: additivity: for all scalars a and b whose sum stays below 2^255 and
every point P, mul(P, a + b) equals add(mul(P, a), mul(P, b)). -/
theorem claim_C6_additivity {G : Type} [AddCommGroup G]
    (P : EdwardsPoint G) (a b : Nat) (hab : a + b < 2 ^ 255) :
    mul P (a + b) = (mul P a).add (mul P b) := by
  apply EdwardsPoint.toGroup_inj
  have ha : a < 2 ^ 255 := by omega
  have hb : b < 2 ^ 255 := by omega
  show (mul P (a + b)).toGroup = (mul P a).toGroup + (mul P b).toGroup
  rw [mul_toGroup _ _ hab, mul_toGroup _ _ ha, mul_toGroup _ _ hb]
  push_cast
  rw [add_zsmul]

/-- Witness for C6 at the concrete input G = Int, P = 2, a = 3, b = 4. -/
theorem claim_C6_witness :
    (3 : Nat) + 4 < 2 ^ 255
      ∧ mul (⟨2⟩ : EdwardsPoint Int) (3 + 4) = (mul ⟨2⟩ 3).add (mul ⟨2⟩ 4) :=
  ⟨by norm_num, claim_C6_additivity ⟨2⟩ 3 4 (by norm_num)⟩

set_option maxRecDepth 20000 in
/-- C7 as stated is false: it asserts 64 digit iterations each performing
exactly 4 doublings, i.e. 256 doublings in total, but the engine unwraps the
first iteration (digit 63) without its doublings, so the trace at the
concrete input G = Int, P = 1, s = 1 contains only 252 doubling events. -/
theorem claim_C7_counterexample :
    ¬ ((mulI (⟨1⟩ : EdwardsPoint Int) 1).2.count OpEvent.doubleOp = 64 * 4) := by
  rw [mulI_snd]
  decide

set_option maxRecDepth 20000 in
/-- C7 (amended): the engine always performs a fixed, input-independent
sequence of operations: one initial selection and addition for digit 63,
then 63 loop iterations of exactly 4 doublings and 1 selection/addition
each; in total 380 operations with 252 doublings, 64 selections and 64
additions, regardless of the point, the scalar or the group. -/
theorem claim_C7_fixed_operation_counts {G : Type} [AddCommGroup G]
    (P : EdwardsPoint G) (s : Nat) :
    (mulI P s).2.length = 380
      ∧ (mulI P s).2.count OpEvent.doubleOp = 63 * 4
      ∧ (mulI P s).2.count OpEvent.selectOp = 64
      ∧ (mulI P s).2.count OpEvent.addOp = 64 := by
  rw [mulI_snd]
  decide

/-- C8: on the accelerated backend, a failing host intrinsic makes mul abort
(modelled as the `none` outcome of `expect`) rather than return a value or
fall back to the generic path; the generic engine is total and yields a
result for every input. -/
theorem claim_C8_abort_on_intrinsic_failure {G : Type} [AddCommGroup G]
    (host : EdwardsPoint G → Nat → Option (EdwardsPoint G))
    (P : EdwardsPoint G) (s : Nat) (hfail : host P s = none) :
    mulZkvm host P s = none
      ∧ (∀ Q, mulZkvm host P s ≠ some Q)
      ∧ (∃ Q, mul P s = Q) := by
  have h : mulZkvm host P s = none := by
    unfold mulZkvm
    rw [hfail]
  exact ⟨h, fun Q hQ => by rw [h] at hQ; exact Option.noConfusion hQ, mul P s, rfl⟩

/-- Witness for C8 with the always-failing host at G = Int, P = 1, s = 2. -/
theorem claim_C8_witness :
    (fun (_ : EdwardsPoint Int) (_ : Nat) => (none : Option (EdwardsPoint Int)))
        (⟨1⟩ : EdwardsPoint Int) 2 = none
      ∧ (mulZkvm (fun _ _ => none) (⟨1⟩ : EdwardsPoint Int) 2 = none
        ∧ (∀ Q, mulZkvm (fun _ _ => none) (⟨1⟩ : EdwardsPoint Int) 2 ≠ some Q)
        ∧ (∃ Q, mul (⟨1⟩ : EdwardsPoint Int) 2 = Q)) :=
  ⟨rfl, claim_C8_abort_on_intrinsic_failure (fun _ _ => none) ⟨1⟩ 2 rfl⟩

/-- C9: constant time in the leakage model: the ordered trace of operations
the engine performs (doublings, selections, additions; a selection touches
the whole table and leaks nothing about its digit) is one fixed sequence,
identical for all points, all scalars and even all groups, so no branch or
access pattern depends on the secret scalar except through the constant-time
select primitive. -/
theorem claim_C9_constant_time_trace {G H : Type} [AddCommGroup G]
    [AddCommGroup H] (P : EdwardsPoint G) (s : Nat) (Q : EdwardsPoint H)
    (t : Nat) :
    (mulI P s).2 = (mulI Q t).2 := by
  rw [mulI_snd, mulI_snd]

/-- C10: for every scalar s < 2^255 the most significant digit
as_radix_16(s)[63] is non-negative, lying in [0, 8], strictly tighter than
the documented [-8, 8]; the initial selection at index 63 therefore never
selects a negated entry. -/
theorem claim_C10_top_digit_nonneg (s : Nat) (hs : s < 2 ^ 255) :
    0 ≤ (as_radix_16 s).getD 63 0 ∧ (as_radix_16 s).getD 63 0 ≤ 8 := by
  rw [as_radix_16_getD_63]
  have := iterNext_63_le s hs
  omega

/-- Witness for C10 at the concrete scalar s = 12345. -/
theorem claim_C10_witness :
    (12345 : Nat) < 2 ^ 255
      ∧ (0 ≤ (as_radix_16 12345).getD 63 0 ∧ (as_radix_16 12345).getD 63 0 ≤ 8) :=
  ⟨by norm_num, claim_C10_top_digit_nonneg 12345 (by norm_num)⟩

end VariableBase
